import Mathlib

/-!
Verification development for the markdown-rendering module `src/render.rs`
(function `markdown_to_html` and the `MarkdownRenderer` sanitization policy).

The in-repository logic — the relative-URL rewriting closure, the trusted-host
decision, and the allowlist tables — is embedded directly from the source.
The external collaborators (the URL parser from the `url` crate, the markdown
converter `comrak`, and the HTML sanitizer `ammonia`) are not part of this
repository; where their behavior is needed it is modelled from the spec and
each such definition says so in its doc comment.
-/

namespace CratesIoRender

/-- A parsed absolute URL as exposed by the external URL library; only the
host component is consulted by the renderer (`url.host_str()`). -/
structure ParsedUrl where
  host_str : Option String
deriving DecidableEq

/-- The check `ends_with('/')` used by the rewriting closure: the last
character of the string is a slash. -/
def ends_with_slash (s : String) : Bool :=
  match s.data.getLast? with
  | some c => c = '/'
  | none => false

/-- The check `starts_with('/')` used by the rewriting closure: the first
character of the string is a slash. -/
def starts_with_slash (s : String) : Bool :=
  match s.data with
  | c :: _ => c = '/'
  | [] => false

/-- The string built by the body of the `relative_url_sanitizer` closure in
`MarkdownRenderer::new` (src/render.rs lines 111-121), for a present base:
append a slash to the base unless it already ends in one, append
`blob/master`, append a slash unless the relative URL starts with one,
then append the relative URL. -/
def rewritten_url (base url : String) : String :=
  let u1 := if ends_with_slash base then base else base ++ "/"
  let u2 := u1 ++ "blob/master"
  let u3 := if starts_with_slash url then u2 else u2 ++ "/"
  u3 ++ url

/-- The `relative_url_sanitizer` closure itself (src/render.rs lines 102-122).
It captures `sanitizer_base_url : Option String` and begins with
`sanitizer_base_url.clone().unwrap()`; the unwrap of `none` is a panic,
modelled as `Except.error`. On a present base it always returns
`Some(rewritten)`. -/
def relative_url_sanitizer (stored : Option String) (url : String) :
    Except String (Option String) :=
  match stored with
  | none => Except.error "called unwrap on a None value"
  | some base => Except.ok (some (rewritten_url base url))

/-- The `use_relative` trust decision in `MarkdownRenderer::new`
(src/render.rs lines 124-132): the base URL must be present, parse as an
absolute URL, and have host exactly github.com, gitlab.com or bitbucket.org.
The external URL parser is abstracted as a function argument. -/
def use_relative (parse : String → Option ParsedUrl) (base_url : Option String) : Bool :=
  match base_url with
  | some base =>
    match parse base with
    | some url =>
      url.host_str == some "github.com" || url.host_str == some "gitlab.com"
        || url.host_str == some "bitbucket.org"
    | none => false
  | none => false

/-- The relative-URL policy handed to the sanitizer builder: `Deny`, or the
custom rewriting closure together with the `Option String` base it captured. -/
inductive UrlRelative where
  | Deny : UrlRelative
  | Custom : Option String → UrlRelative
deriving DecidableEq

/-- The `.url_relative(...)` configuration performed by `MarkdownRenderer::new`
(src/render.rs lines 135-145): the custom closure exactly when `use_relative`
holds, `Deny` otherwise.  The closure captures `sanitizer_base_url`, which is
`base_url.map(|s| s.to_string())`, i.e. the same option of strings. -/
def url_relative (parse : String → Option ParsedUrl) (base_url : Option String) :
    UrlRelative :=
  if use_relative parse base_url then UrlRelative.Custom base_url else UrlRelative.Deny

/-- The fixed link-relation hardening string passed to `.link_rel(...)`. -/
def link_rel : String := "nofollow noopener noreferrer"

/-- The allowed-tag table from `MarkdownRenderer::new` (src/render.rs lines
20-59), verbatim, including the duplicated `hr` entry of the source array. -/
def allowed_tags : List String :=
  ["a", "b", "blockquote", "br", "code", "dd", "del", "dl", "dt", "em",
   "h1", "h2", "h3", "hr", "i", "img", "input", "kbd", "li", "ol", "p",
   "pre", "s", "strike", "strong", "sub", "sup", "table", "tbody", "td",
   "th", "thead", "tr", "ul", "hr", "span"]

/-- The per-tag allowed-attribute table (src/render.rs lines 60-75). -/
def tag_attributes (tag : String) : List String :=
  if tag = "a" then ["href", "target"]
  else if tag = "img" then ["width", "height", "src", "alt", "align"]
  else if tag = "input" then ["checked", "disabled", "type"]
  else []

/-- The per-tag allowed-class table (src/render.rs lines 76-100): only `code`
has allowed classes. -/
def allowed_classes (tag : String) : List String :=
  if tag = "code" then
    ["language-bash", "language-clike", "language-glsl", "language-go",
     "language-ini", "language-javascript", "language-json", "language-markup",
     "language-protobuf", "language-ruby", "language-rust", "language-scss",
     "language-sql", "yaml"]
  else []

/-- Modelled from the spec: the glossary defines a relative URL as "a URL
lacking a scheme"; this is the classifier the sanitizer model uses to decide
absolute versus relative.  Scheme tail characters per the generic URI syntax:
letters, digits, plus, minus, dot. -/
def schemeTailChar (c : Char) : Bool :=
  c.isAlphanum || c = '+' || c = '-' || c = '.'

/-- Modelled from the spec: scan the remainder of a scheme, succeeding on the
terminating colon. -/
def schemeTail : List Char → Bool
  | [] => false
  | c :: cs => if c = ':' then true else if schemeTailChar c then schemeTail cs else false

/-- Modelled from the spec: a character list starts with a scheme when its
head is a letter followed by scheme characters and a colon. -/
def hasSchemeChars : List Char → Bool
  | [] => false
  | c :: cs => c.isAlpha && schemeTail cs

/-- Modelled from the spec: a string has a scheme when it starts with a letter
followed by scheme characters and a colon. -/
def hasScheme (s : String) : Bool :=
  hasSchemeChars s.data

/-- Modelled from the spec: split a character list into the space-separated
tokens of a `class` attribute value, dropping empty tokens.  The accumulator
holds the current token reversed. -/
def splitTokensAux : List Char → List Char → List (List Char)
  | [], acc => if acc.isEmpty then [] else [acc.reverse]
  | c :: cs, acc =>
    if c = ' ' then
      if acc.isEmpty then splitTokensAux cs [] else acc.reverse :: splitTokensAux cs []
    else splitTokensAux cs (c :: acc)

/-- Modelled from the spec: join tokens with single spaces. -/
def joinTokens : List (List Char) → List Char
  | [] => []
  | [t] => t
  | t :: t2 :: ts => t ++ ' ' :: joinTokens (t2 :: ts)

/-- Modelled from the spec: the space-separated class tokens of a string. -/
def splitClasses (s : String) : List String :=
  (splitTokensAux s.data []).map fun l => { data := l }

/-- Modelled from the spec: rebuild a class attribute value from tokens. -/
def joinClasses (l : List String) : String :=
  { data := joinTokens (l.map String.data) }

mutual
/-- Modelled from the spec (§4.3): the HTML document tree that the external
HTML library hands to the policy layer.  A node is text or an element with a
tag name, an attribute list and children. -/
inductive Node where
  | text : String → Node
  | elem : String → List (String × String) → NodeList → Node
inductive NodeList where
  | nil : NodeList
  | cons : Node → NodeList → NodeList
end

deriving instance DecidableEq for Node

deriving instance DecidableEq for NodeList

/-- Concatenation of node lists. -/
def NodeList.append : NodeList → NodeList → NodeList
  | NodeList.nil, ms => ms
  | NodeList.cons n ns, ms => NodeList.cons n (NodeList.append ns ms)

/-- Modelled from the spec (§4.3, URL handling): classify an attribute value;
absolute URLs pass through unchanged, relative ones are handled by the policy:
`Deny` removes the attribute, the custom closure rewrites it (its result
`none` would only arise from the panic branch, modelled as removal). -/
def clean_url (pol : UrlRelative) (v : String) : Option String :=
  if hasScheme v then some v
  else
    match pol with
    | UrlRelative.Deny => none
    | UrlRelative.Custom stored =>
      match relative_url_sanitizer stored v with
      | Except.ok r => r
      | Except.error _ => none

/-- Modelled from the spec (§4.3, per-class decision): keep only the
space-separated tokens allowed for the tag; if none survive, drop the
attribute entirely. -/
def clean_class (tag v : String) : Option String :=
  let kept := (splitClasses v).filter fun c => decide (c ∈ allowed_classes tag)
  if kept.isEmpty then none else some (joinClasses kept)

/-- Modelled from the spec (§4.3, per-attribute decision): `class` is filtered
by the class allowlist; other attributes survive only when listed for the tag,
with `href` and `src` additionally put through the URL policy. -/
def clean_attr (pol : UrlRelative) (tag : String) (kv : String × String) :
    Option (String × String) :=
  if kv.1 = "class" then
    (clean_class tag kv.2).map fun v => (kv.1, v)
  else if kv.1 ∈ tag_attributes tag then
    if kv.1 = "href" ∨ kv.1 = "src" then
      (clean_url pol kv.2).map fun v => (kv.1, v)
    else some kv
  else none

/-- Modelled from the spec (§4.3): the surviving attributes of a tag, with the
link-relation hardening string forced onto every anchor. -/
def clean_attrs (pol : UrlRelative) (tag : String) (attrs : List (String × String)) :
    List (String × String) :=
  attrs.filterMap (clean_attr pol tag) ++ (if tag = "a" then [("rel", link_rel)] else [])

mutual
/-- Modelled from the spec (§4.3, per-tag decision): an element whose tag is
allowed survives with cleaned attributes and sanitized children; a disallowed
element is unwrapped, its sanitized children spliced inline; text survives. -/
def sanitizeNode (pol : UrlRelative) : Node → NodeList
  | Node.text s => NodeList.cons (Node.text s) NodeList.nil
  | Node.elem tag attrs children =>
    let cs := sanitizeList pol children
    if tag ∈ allowed_tags then
      NodeList.cons (Node.elem tag (clean_attrs pol tag attrs) cs) NodeList.nil
    else cs
/-- Modelled from the spec (§4.3): sanitize every node of a list. -/
def sanitizeList (pol : UrlRelative) : NodeList → NodeList
  | NodeList.nil => NodeList.nil
  | NodeList.cons n ns => NodeList.append (sanitizeNode pol n) (sanitizeList pol ns)
end

mutual
/-- All element nodes of a tree, the node itself included, in document order. -/
def elemsN : Node → List Node
  | Node.text _ => []
  | Node.elem tag attrs children => Node.elem tag attrs children :: elemsL children
/-- All element nodes occurring in a node list. -/
def elemsL : NodeList → List Node
  | NodeList.nil => []
  | NodeList.cons n ns => elemsN n ++ elemsL ns
end

mutual
/-- The concatenated text content of a node. -/
def textN : Node → String
  | Node.text s => s
  | Node.elem _ _ children => textL children
/-- The concatenated text content of a node list. -/
def textL : NodeList → String
  | NodeList.nil => ""
  | NodeList.cons n ns => textN n ++ textL ns
end

/-- Modelled from the spec (§4.3, output encoding): HTML-entity escaping of
one character of textual content. -/
def escapeChar (c : Char) : List Char :=
  if c = '<' then "&lt;".data
  else if c = '>' then "&gt;".data
  else if c = '&' then "&amp;".data
  else if c = '"' then "&quot;".data
  else [c]

/-- Modelled from the spec: HTML-entity escaping of textual content. -/
def escapeHtml (s : String) : String :=
  { data := s.data.flatMap escapeChar }

/-- Serialization of an attribute list. -/
def serializeAttrs (attrs : List (String × String)) : String :=
  attrs.foldr (fun kv acc => " " ++ kv.1 ++ "=" ++ "\"" ++ escapeHtml kv.2 ++ "\"" ++ acc) ""

mutual
/-- Modelled from the spec: serialize the sanitized tree back to an HTML
string; tag markers come only from element nodes, text is escaped. -/
def serializeN : Node → String
  | Node.text s => escapeHtml s
  | Node.elem tag attrs children =>
    "<" ++ tag ++ serializeAttrs attrs ++ ">" ++ serializeL children ++ "</" ++ tag ++ ">"
/-- Modelled from the spec: serialize a node list. -/
def serializeL : NodeList → String
  | NodeList.nil => ""
  | NodeList.cons n ns => serializeN n ++ serializeL ns
end

/-- The entry point `markdown_to_html` (src/render.rs lines 185-188) composed
with `MarkdownRenderer::new` and `MarkdownRenderer::to_html` (lines 153-164):
the external markdown converter plus HTML parse is abstracted as `convert`,
the URL parser as `parse`; the result is always `Ok` of the serialized
sanitized tree. -/
def markdown_to_html (convert : String → NodeList) (parse : String → Option ParsedUrl)
    (text : String) (base_url : Option String) : Except String String :=
  Except.ok (serializeL (sanitizeList (url_relative parse base_url) (convert text)))

/-- A URL policy is valid when, if it is the custom rewriter with a stored
base, that base carries a scheme.  Every policy produced by `url_relative`
from a base that the external parser accepted as an absolute URL is valid. -/
def ValidPol : UrlRelative → Prop
  | UrlRelative.Custom (some b) => hasScheme b = true
  | _ => True

/-! ### Scheme-detection lemmas -/

theorem schemeTail_append (l m : List Char) (h : schemeTail l = true) :
    schemeTail (l ++ m) = true := by
  induction l with
  | nil => exact absurd h (by simp [schemeTail])
  | cons c cs ih =>
    rw [List.cons_append, schemeTail]
    rw [schemeTail] at h
    by_cases hc : c = ':'
    · rw [if_pos hc]
    · rw [if_neg hc] at h ⊢
      by_cases hs : schemeTailChar c = true
      · rw [if_pos hs] at h ⊢
        exact ih h
      · rw [if_neg hs] at h
        exact absurd h (by simp)

theorem hasSchemeChars_append (l m : List Char) (h : hasSchemeChars l = true) :
    hasSchemeChars (l ++ m) = true := by
  cases l with
  | nil => exact absurd h (by simp [hasSchemeChars])
  | cons c cs =>
    rw [hasSchemeChars, Bool.and_eq_true] at h
    rw [List.cons_append, hasSchemeChars, Bool.and_eq_true]
    exact ⟨h.1, schemeTail_append cs m h.2⟩

theorem hasScheme_append (s t : String) (h : hasScheme s = true) :
    hasScheme (s ++ t) = true := by
  unfold hasScheme at h ⊢
  rw [String.data_append]
  exact hasSchemeChars_append s.data t.data h

theorem hasScheme_rewritten (base url : String) (h : hasScheme base = true) :
    hasScheme (rewritten_url base url) = true := by
  simp only [rewritten_url]
  have h1 : ∀ b : String, hasScheme b = true →
      hasScheme (if ends_with_slash base then b else b ++ "/") = true := by
    intro b hb
    by_cases hc : ends_with_slash base = true
    · rw [if_pos hc]; exact hb
    · rw [if_neg hc]; exact hasScheme_append b "/" hb
  have h2 : hasScheme ((if ends_with_slash base then base else base ++ "/") ++ "blob/master") = true :=
    hasScheme_append _ _ (h1 base h)
  by_cases hc : starts_with_slash url = true
  · rw [if_pos hc]; exact hasScheme_append _ _ h2
  · rw [if_neg hc]; exact hasScheme_append _ _ (hasScheme_append _ _ h2)

/-! ### Class-token splitting lemmas -/

theorem splitTokensAux_wf : ∀ (l acc : List Char), (∀ c ∈ acc, ¬ c = ' ') →
    ∀ t ∈ splitTokensAux l acc, t ≠ [] ∧ ∀ c ∈ t, ¬ c = ' ' := by
  intro l
  induction l with
  | nil =>
    intro acc hacc t ht
    rw [splitTokensAux] at ht
    by_cases he : acc.isEmpty = true
    · rw [if_pos he] at ht
      exact absurd ht (by simp)
    · rw [if_neg he] at ht
      have ht' : t = acc.reverse := by simpa using ht
      subst ht'
      refine ⟨?_, ?_⟩
      · simp only [ne_eq, List.reverse_eq_nil_iff]
        intro hnil
        rw [hnil] at he
        exact he rfl
      · intro c hc
        exact hacc c (List.mem_reverse.mp hc)
  | cons c cs ih =>
    intro acc hacc t ht
    rw [splitTokensAux] at ht
    by_cases hc : c = ' '
    · rw [if_pos hc] at ht
      by_cases he : acc.isEmpty = true
      · rw [if_pos he] at ht
        exact ih [] (by simp) t ht
      · rw [if_neg he] at ht
        cases ht with
        | head =>
          refine ⟨?_, ?_⟩
          · simp only [ne_eq, List.reverse_eq_nil_iff]
            intro hnil
            rw [hnil] at he
            exact he rfl
          · intro x hx
            exact hacc x (List.mem_reverse.mp hx)
        | tail _ h2 => exact ih [] (by simp) t h2
    · rw [if_neg hc] at ht
      refine ih (c :: acc) ?_ t ht
      intro x hx
      cases hx with
      | head => exact hc
      | tail _ h2 => exact hacc x h2

theorem splitTokensAux_cat (t : List Char) : ∀ (cs acc : List Char), (∀ c ∈ t, ¬ c = ' ') →
    splitTokensAux (t ++ cs) acc = splitTokensAux cs (t.reverse ++ acc) := by
  induction t with
  | nil => intro cs acc _; simp
  | cons c t ih =>
    intro cs acc h
    have hc : ¬ c = ' ' := h c (by simp)
    rw [List.cons_append, splitTokensAux, if_neg hc]
    rw [ih cs (c :: acc) (fun x hx => h x (by simp [hx]))]
    congr 1
    simp

theorem split_join : ∀ ts : List (List Char),
    (∀ t ∈ ts, t ≠ [] ∧ ∀ c ∈ t, ¬ c = ' ') →
    splitTokensAux (joinTokens ts) [] = ts := by
  intro ts
  induction ts with
  | nil => intro _; rfl
  | cons t ts ih =>
    intro h
    obtain ⟨htne, htns⟩ := h t (by simp)
    cases ts with
    | nil =>
      have hcat := splitTokensAux_cat t [] [] htns
      rw [List.append_nil] at hcat
      rw [joinTokens, hcat, splitTokensAux, if_neg (by simpa using htne)]
      simp
    | cons t2 ts2 =>
      rw [joinTokens, splitTokensAux_cat t _ [] htns, splitTokensAux,
        if_pos rfl, if_neg (by simpa using htne)]
      rw [ih (fun x hx => h x (by simp [hx]))]
      simp

theorem splitClasses_wf (s : String) :
    ∀ t ∈ splitClasses s, t ≠ "" ∧ ∀ c ∈ t.data, ¬ c = ' ' := by
  intro t ht
  unfold splitClasses at ht
  rcases List.mem_map.mp ht with ⟨l, hl, rfl⟩
  obtain ⟨h1, h2⟩ := splitTokensAux_wf s.data [] (by simp) l hl
  refine ⟨?_, h2⟩
  intro hcontra
  exact h1 (congrArg String.data hcontra)

theorem splitClasses_joinClasses (ts : List String)
    (h : ∀ t ∈ ts, t ≠ "" ∧ ∀ c ∈ t.data, ¬ c = ' ') :
    splitClasses (joinClasses ts) = ts := by
  unfold splitClasses joinClasses
  rw [split_join (ts.map String.data) ?wf]
  case wf =>
    intro l hl
    rcases List.mem_map.mp hl with ⟨t, htm, rfl⟩
    obtain ⟨h1, h2⟩ := h t htm
    refine ⟨?_, h2⟩
    intro hnil
    exact h1 (String.ext hnil)
  rw [List.map_map]
  exact List.map_id ts

/-! ### Node-list lemmas -/

theorem NodeList.append_nil : (ns : NodeList) → NodeList.append ns NodeList.nil = ns
  | NodeList.nil => rfl
  | NodeList.cons n ns => by rw [NodeList.append, NodeList.append_nil ns]

theorem NodeList.append_assoc : (a : NodeList) → ∀ b c,
    NodeList.append (NodeList.append a b) c = NodeList.append a (NodeList.append b c)
  | NodeList.nil => fun b c => rfl
  | NodeList.cons n ns => fun b c => by
    rw [NodeList.append, NodeList.append, NodeList.append, NodeList.append_assoc ns b c]

theorem textL_append : (a : NodeList) → ∀ b,
    textL (NodeList.append a b) = textL a ++ textL b
  | NodeList.nil => fun b => by rw [NodeList.append, textL, String.empty_append]
  | NodeList.cons n ns => fun b => by
    rw [NodeList.append, textL, textL, textL_append ns b, String.append_assoc]

theorem elemsL_append : (a : NodeList) → ∀ b,
    elemsL (NodeList.append a b) = elemsL a ++ elemsL b
  | NodeList.nil => fun b => rfl
  | NodeList.cons n ns => fun b => by
    rw [NodeList.append, elemsL, elemsL, elemsL_append ns b, List.append_assoc]

theorem sanitizeList_append (pol : UrlRelative) : (a : NodeList) → ∀ b,
    sanitizeList pol (NodeList.append a b)
      = NodeList.append (sanitizeList pol a) (sanitizeList pol b)
  | NodeList.nil => fun b => rfl
  | NodeList.cons n ns => fun b => by
    rw [NodeList.append, sanitizeList, sanitizeList, sanitizeList_append pol ns b,
      NodeList.append_assoc]

/-! ### URL-cleaning lemmas -/

theorem clean_url_absolute (pol : UrlRelative) (v : String) (h : hasScheme v = true) :
    clean_url pol v = some v := by
  unfold clean_url
  rw [if_pos h]

theorem clean_url_deny (v w : String) (h : clean_url UrlRelative.Deny v = some w) :
    hasScheme v = true ∧ w = v := by
  unfold clean_url at h
  by_cases hv : hasScheme v = true
  · rw [if_pos hv] at h
    injection h with h
    exact ⟨hv, h.symm⟩
  · rw [if_neg hv] at h
    cases h

theorem clean_url_idem (pol : UrlRelative) (hpol : ValidPol pol) (v w : String)
    (h : clean_url pol v = some w) : clean_url pol w = some w := by
  unfold clean_url at h
  by_cases hv : hasScheme v = true
  · rw [if_pos hv] at h
    injection h with h
    subst h
    exact clean_url_absolute pol v hv
  · rw [if_neg hv] at h
    cases pol with
    | Deny => cases h
    | Custom stored =>
      cases stored with
      | none => simp [relative_url_sanitizer] at h
      | some b =>
        simp only [relative_url_sanitizer] at h
        injection h with h
        subst h
        have hb : hasScheme b = true := hpol
        exact clean_url_absolute _ _ (hasScheme_rewritten b v hb)

/-! ### Class-cleaning lemmas -/

theorem clean_class_none (tag v : String) :
    clean_class tag v = none ↔
      (splitClasses v).filter (fun c => decide (c ∈ allowed_classes tag)) = [] := by
  unfold clean_class
  by_cases h : ((splitClasses v).filter fun c => decide (c ∈ allowed_classes tag)).isEmpty = true
  · rw [if_pos h]
    exact iff_of_true rfl (List.isEmpty_iff.mp h)
  · rw [if_neg h]
    constructor
    · intro hc
      exact absurd hc (by simp)
    · intro hk
      exact absurd (by rw [hk]; rfl) h

theorem clean_class_some (tag v w : String) (h : clean_class tag v = some w) :
    w = joinClasses ((splitClasses v).filter fun c => decide (c ∈ allowed_classes tag)) ∧
    splitClasses w = (splitClasses v).filter (fun c => decide (c ∈ allowed_classes tag)) ∧
    (splitClasses v).filter (fun c => decide (c ∈ allowed_classes tag)) ≠ [] := by
  unfold clean_class at h
  by_cases he : ((splitClasses v).filter fun c => decide (c ∈ allowed_classes tag)).isEmpty = true
  · rw [if_pos he] at h
    cases h
  · rw [if_neg he] at h
    injection h with h
    subst h
    have hwf : ∀ t ∈ (splitClasses v).filter (fun c => decide (c ∈ allowed_classes tag)),
        t ≠ "" ∧ ∀ c ∈ t.data, ¬ c = ' ' :=
      fun t ht => splitClasses_wf v t (List.mem_filter.mp ht).1
    refine ⟨rfl, splitClasses_joinClasses _ hwf, ?_⟩
    intro hnil
    rw [hnil] at he
    exact he rfl

theorem clean_class_idem (tag v w : String) (h : clean_class tag v = some w) :
    clean_class tag w = some w := by
  obtain ⟨hw, hsplit, hne⟩ := clean_class_some tag v w h
  unfold clean_class
  rw [hsplit, List.filter_filter]
  simp only [Bool.and_self]
  rw [if_neg (by simpa using hne)]
  rw [hw]

/-! ### Attribute-cleaning lemmas -/

theorem clean_attr_key (pol : UrlRelative) (tag : String) (kv kv' : String × String)
    (h : clean_attr pol tag kv = some kv') :
    kv'.1 = kv.1 ∧ (kv.1 = "class" ∨ kv.1 ∈ tag_attributes tag) := by
  unfold clean_attr at h
  by_cases h1 : kv.1 = "class"
  · rw [if_pos h1] at h
    cases hc : clean_class tag kv.2 with
    | none => rw [hc] at h; cases h
    | some w =>
      rw [hc] at h
      simp only [Option.map_some'] at h
      injection h with h
      subst h
      exact ⟨rfl, Or.inl h1⟩
  · rw [if_neg h1] at h
    by_cases h2 : kv.1 ∈ tag_attributes tag
    · rw [if_pos h2] at h
      by_cases h3 : kv.1 = "href" ∨ kv.1 = "src"
      · rw [if_pos h3] at h
        cases hc : clean_url pol kv.2 with
        | none => rw [hc] at h; cases h
        | some w =>
          rw [hc] at h
          simp only [Option.map_some'] at h
          injection h with h
          subst h
          exact ⟨rfl, Or.inr h2⟩
      · rw [if_neg h3] at h
        injection h with h
        subst h
        exact ⟨rfl, Or.inr h2⟩
    · rw [if_neg h2] at h
      cases h

theorem clean_attr_url_value (pol : UrlRelative) (tag : String) (kv kv' : String × String)
    (h : clean_attr pol tag kv = some kv') (hks : kv'.1 = "href" ∨ kv'.1 = "src") :
    ∃ v0, clean_url pol v0 = some kv'.2 := by
  unfold clean_attr at h
  by_cases h1 : kv.1 = "class"
  · rw [if_pos h1] at h
    cases hc : clean_class tag kv.2 with
    | none => rw [hc] at h; cases h
    | some w =>
      rw [hc] at h
      simp only [Option.map_some'] at h
      injection h with h
      subst h
      rw [h1] at hks
      rcases hks with hks | hks <;> exact absurd hks (by decide)
  · rw [if_neg h1] at h
    by_cases h2 : kv.1 ∈ tag_attributes tag
    · rw [if_pos h2] at h
      by_cases h3 : kv.1 = "href" ∨ kv.1 = "src"
      · rw [if_pos h3] at h
        cases hc : clean_url pol kv.2 with
        | none => rw [hc] at h; cases h
        | some w =>
          rw [hc] at h
          simp only [Option.map_some'] at h
          injection h with h
          subst h
          exact ⟨kv.2, hc⟩
      · rw [if_neg h3] at h
        injection h with h
        subst h
        exact absurd hks h3
    · rw [if_neg h2] at h
      cases h

theorem clean_attr_idem (pol : UrlRelative) (tag : String) (hpol : ValidPol pol)
    (kv kv' : String × String) (h : clean_attr pol tag kv = some kv') :
    clean_attr pol tag kv' = some kv' := by
  unfold clean_attr at h ⊢
  by_cases h1 : kv.1 = "class"
  · rw [if_pos h1] at h
    cases hc : clean_class tag kv.2 with
    | none => rw [hc] at h; cases h
    | some w =>
      rw [hc] at h
      simp only [Option.map_some'] at h
      injection h with h
      subst h
      rw [if_pos h1]
      rw [clean_class_idem tag kv.2 w hc]
      rfl
  · rw [if_neg h1] at h
    by_cases h2 : kv.1 ∈ tag_attributes tag
    · rw [if_pos h2] at h
      by_cases h3 : kv.1 = "href" ∨ kv.1 = "src"
      · rw [if_pos h3] at h
        cases hc : clean_url pol kv.2 with
        | none => rw [hc] at h; cases h
        | some w =>
          rw [hc] at h
          simp only [Option.map_some'] at h
          injection h with h
          subst h
          rw [if_neg h1, if_pos h2, if_pos h3]
          rw [clean_url_idem pol hpol kv.2 w hc]
          rfl
      · rw [if_neg h3] at h
        injection h with h
        subst h
        rw [if_neg h1, if_pos h2, if_neg h3]
    · rw [if_neg h2] at h
      cases h

theorem filterMap_idem {α : Type} (f : α → Option α)
    (hf : ∀ x y, f x = some y → f y = some y) :
    ∀ l : List α, (l.filterMap f).filterMap f = l.filterMap f := by
  intro l
  induction l with
  | nil => rfl
  | cons x xs ih =>
    cases hx : f x with
    | none => simp [List.filterMap_cons, hx, ih]
    | some y => simp [List.filterMap_cons, hx, hf x y hx, ih]

theorem rel_not_allowed (tag : String) : "rel" ∉ tag_attributes tag := by
  unfold tag_attributes
  split
  · decide
  · split
    · decide
    · split
      · decide
      · decide

theorem clean_attr_rel_none (pol : UrlRelative) (tag v : String) :
    clean_attr pol tag ("rel", v) = none := by
  unfold clean_attr
  rw [if_neg (by simp : ¬ ("rel", v).1 = "class")]
  rw [if_neg (rel_not_allowed tag)]

theorem clean_attrs_idem (pol : UrlRelative) (tag : String) (hpol : ValidPol pol)
    (attrs : List (String × String)) :
    clean_attrs pol tag (clean_attrs pol tag attrs) = clean_attrs pol tag attrs := by
  unfold clean_attrs
  rw [List.filterMap_append]
  rw [filterMap_idem _ (fun x y => clean_attr_idem pol tag hpol x y) attrs]
  by_cases ha : tag = "a"
  · simp only [if_pos ha]
    simp [List.filterMap_cons, clean_attr_rel_none]
  · simp only [if_neg ha]
    simp

theorem clean_attrs_mem (pol : UrlRelative) (tag : String) (attrs : List (String × String))
    (kv : String × String) (h : kv ∈ clean_attrs pol tag attrs) :
    (∃ kv0, clean_attr pol tag kv0 = some kv) ∨ (tag = "a" ∧ kv = ("rel", link_rel)) := by
  unfold clean_attrs at h
  rw [List.mem_append] at h
  rcases h with h | h
  · rcases List.mem_filterMap.mp h with ⟨x, _, he⟩
    exact Or.inl ⟨x, he⟩
  · by_cases ha : tag = "a"
    · rw [if_pos ha] at h
      simp only [List.mem_singleton] at h
      exact Or.inr ⟨ha, h⟩
    · rw [if_neg ha] at h
      cases h

theorem rel_mem_clean_attrs (pol : UrlRelative) (attrs : List (String × String)) :
    ("rel", link_rel) ∈ clean_attrs pol "a" attrs := by
  unfold clean_attrs
  rw [if_pos rfl, List.mem_append]
  exact Or.inr (List.mem_singleton.mpr rfl)

theorem rel_value_clean_attrs (pol : UrlRelative) (tag : String)
    (attrs : List (String × String)) (kv : String × String)
    (h : kv ∈ clean_attrs pol tag attrs) (hrel : kv.1 = "rel") : kv.2 = link_rel := by
  rcases clean_attrs_mem pol tag attrs kv h with ⟨kv0, h0⟩ | ⟨_, h0⟩
  · obtain ⟨hkey, hcase⟩ := clean_attr_key pol tag kv0 kv h0
    rw [hrel] at hkey
    rcases hcase with hc | hc
    · rw [← hkey] at hc
      exact absurd hc (by decide)
    · rw [← hkey] at hc
      exact absurd hc (rel_not_allowed tag)
  · rw [h0]

/-! ### Tree-level sanitization lemmas -/

mutual
theorem textL_sanitizeNode (pol : UrlRelative) : (n : Node) →
    textL (sanitizeNode pol n) = textN n
  | Node.text s => by
    simp only [sanitizeNode, textL, textN]
    exact String.append_empty s
  | Node.elem tag attrs children => by
    simp only [sanitizeNode]
    by_cases h : tag ∈ allowed_tags
    · rw [if_pos h]
      simp only [textL, textN]
      rw [textL_sanitizeList pol children]
      exact String.append_empty _
    · rw [if_neg h]
      simp only [textN]
      exact textL_sanitizeList pol children
theorem textL_sanitizeList (pol : UrlRelative) : (ns : NodeList) →
    textL (sanitizeList pol ns) = textL ns
  | NodeList.nil => rfl
  | NodeList.cons n ns => by
    rw [sanitizeList, textL_append, textL_sanitizeNode pol n, textL_sanitizeList pol ns, textL]
end

mutual
theorem elems_shape_N (pol : UrlRelative) : (n : Node) → ∀ tag attrs children,
    Node.elem tag attrs children ∈ elemsL (sanitizeNode pol n) →
    tag ∈ allowed_tags ∧ ∃ a0, attrs = clean_attrs pol tag a0
  | Node.text s => by
    intro tag attrs children h
    simp only [sanitizeNode, elemsL, elemsN, List.append_nil] at h
    cases h
  | Node.elem t a c => by
    intro tag attrs children h
    simp only [sanitizeNode] at h
    by_cases ht : t ∈ allowed_tags
    · rw [if_pos ht] at h
      simp only [elemsL, elemsN, List.append_nil] at h
      rcases List.mem_cons.mp h with heq | hmem
      · injection heq with h1 h2 h3
        subst h1
        subst h2
        exact ⟨ht, a, rfl⟩
      · exact elems_shape_L pol c tag attrs children hmem
    · rw [if_neg ht] at h
      exact elems_shape_L pol c tag attrs children h
theorem elems_shape_L (pol : UrlRelative) : (ns : NodeList) → ∀ tag attrs children,
    Node.elem tag attrs children ∈ elemsL (sanitizeList pol ns) →
    tag ∈ allowed_tags ∧ ∃ a0, attrs = clean_attrs pol tag a0
  | NodeList.nil => by
    intro tag attrs children h
    cases h
  | NodeList.cons n ns => by
    intro tag attrs children h
    rw [sanitizeList, elemsL_append, List.mem_append] at h
    rcases h with h | h
    · exact elems_shape_N pol n tag attrs children h
    · exact elems_shape_L pol ns tag attrs children h
end

mutual
theorem sanitize_idem_N (pol : UrlRelative) (hpol : ValidPol pol) : (n : Node) →
    sanitizeList pol (sanitizeNode pol n) = sanitizeNode pol n
  | Node.text s => rfl
  | Node.elem t a c => by
    simp only [sanitizeNode]
    by_cases ht : t ∈ allowed_tags
    · rw [if_pos ht]
      show NodeList.append (sanitizeNode pol (Node.elem t (clean_attrs pol t a)
          (sanitizeList pol c))) (sanitizeList pol NodeList.nil)
        = NodeList.cons (Node.elem t (clean_attrs pol t a) (sanitizeList pol c)) NodeList.nil
      simp only [sanitizeNode, sanitizeList]
      rw [if_pos ht, clean_attrs_idem pol t hpol a, sanitize_idem_L pol hpol c]
      rfl
    · rw [if_neg ht]
      exact sanitize_idem_L pol hpol c
theorem sanitize_idem_L (pol : UrlRelative) (hpol : ValidPol pol) : (ns : NodeList) →
    sanitizeList pol (sanitizeList pol ns) = sanitizeList pol ns
  | NodeList.nil => rfl
  | NodeList.cons n ns => by
    rw [sanitizeList, sanitizeList_append, sanitize_idem_N pol hpol n,
      sanitize_idem_L pol hpol ns]
end

theorem clean_attr_class_value (pol : UrlRelative) (tag : String) (kv0 kv : String × String)
    (h : clean_attr pol tag kv0 = some kv) (hcl : kv.1 = "class") :
    clean_class tag kv0.2 = some kv.2 := by
  unfold clean_attr at h
  by_cases h1 : kv0.1 = "class"
  · rw [if_pos h1] at h
    cases hc : clean_class tag kv0.2 with
    | none => rw [hc] at h; cases h
    | some w =>
      rw [hc] at h
      simp only [Option.map_some'] at h
      injection h with h
      subst h
      rfl
  · rw [if_neg h1] at h
    by_cases h2 : kv0.1 ∈ tag_attributes tag
    · rw [if_pos h2] at h
      by_cases h3 : kv0.1 = "href" ∨ kv0.1 = "src"
      · rw [if_pos h3] at h
        cases hc : clean_url pol kv0.2 with
        | none => rw [hc] at h; cases h
        | some w =>
          rw [hc] at h
          simp only [Option.map_some'] at h
          injection h with h
          subst h
          exact absurd hcl h1
      · rw [if_neg h3] at h
        injection h with h
        subst h
        exact absurd hcl h1
    · rw [if_neg h2] at h
      cases h

/-! ### Claim theorems -/

/-- C1: for every optional base URL, the URL policy is the custom rewriter
bound to that base exactly when the base is present and the external parser
accepts it as an absolute URL whose host is exactly github.com, gitlab.com or
bitbucket.org; in every other case (base absent, parse failure, host absent
or untrusted) the policy is Deny. -/
theorem c1_url_policy_trusted_hosts (parse : String → Option ParsedUrl)
    (base_url : Option String) :
    (url_relative parse base_url = UrlRelative.Custom base_url ↔
      ∃ b, base_url = some b ∧ ∃ u, parse b = some u ∧
        (u.host_str = some "github.com" ∨ u.host_str = some "gitlab.com" ∨
          u.host_str = some "bitbucket.org")) ∧
    (url_relative parse base_url = UrlRelative.Deny ↔
      ¬ ∃ b, base_url = some b ∧ ∃ u, parse b = some u ∧
        (u.host_str = some "github.com" ∨ u.host_str = some "gitlab.com" ∨
          u.host_str = some "bitbucket.org")) := by
  have key : use_relative parse base_url = true ↔
      ∃ b, base_url = some b ∧ ∃ u, parse b = some u ∧
        (u.host_str = some "github.com" ∨ u.host_str = some "gitlab.com" ∨
          u.host_str = some "bitbucket.org") := by
    cases base_url with
    | none => simp [use_relative]
    | some b =>
      cases hp : parse b with
      | none => simp [use_relative, hp]
      | some u => simp [use_relative, hp, or_assoc]
  unfold url_relative
  by_cases hu : use_relative parse base_url = true
  · rw [if_pos hu]
    refine ⟨iff_of_true rfl (key.mp hu), iff_of_false (by simp) ?_⟩
    intro hn
    exact hn (key.mp hu)
  · rw [if_neg hu]
    refine ⟨iff_of_false (by simp) (fun ht => hu (key.mpr ht)), ?_⟩
    exact iff_of_true rfl (fun ht => hu (key.mpr ht))

/-- C2: the bound resolver closure returns exactly the textual concatenation
of the base, a conditional slash, `blob/master`, a conditional slash and the
relative URL, with no URL-semantic normalization; in particular `/hi` against
base `https://github.com/org/repo` yields
`https://github.com/org/repo/blob/master/hi`. -/
theorem c2_resolver_textual_concatenation :
    (∀ base url, relative_url_sanitizer (some base) url =
      Except.ok (some (base ++ (if ends_with_slash base then "" else "/") ++ "blob/master"
        ++ (if starts_with_slash url then "" else "/") ++ url))) ∧
    relative_url_sanitizer (some "https://github.com/org/repo") "/hi" =
      Except.ok (some "https://github.com/org/repo/blob/master/hi") := by
  constructor
  · intro base url
    unfold relative_url_sanitizer
    simp only [rewritten_url]
    split_ifs with h1 h2 h2 <;> simp [String.append_empty, String.append_assoc]
  · rfl

/-- C3: every anchor element in the sanitized output carries the relation
attribute with exactly the fixed hardening string, and no anchor attribute
with key `rel` carries any other value, whatever the input specified. -/
theorem c3_anchor_rel_hardened (pol : UrlRelative) (ns : NodeList)
    (attrs : List (String × String)) (children : NodeList)
    (h : Node.elem "a" attrs children ∈ elemsL (sanitizeList pol ns)) :
    ("rel", link_rel) ∈ attrs ∧ ∀ kv ∈ attrs, kv.1 = "rel" → kv.2 = link_rel := by
  obtain ⟨_, a0, rfl⟩ := elems_shape_L pol ns "a" attrs children h
  exact ⟨rel_mem_clean_attrs pol a0,
    fun kv hkv hrel => rel_value_clean_attrs pol "a" a0 kv hkv hrel⟩

theorem c3_anchor_rel_hardened_witness :
    ("rel", link_rel) ∈ [("target", "_blank"), ("rel", link_rel)] ∧
      ∀ kv ∈ [("target", "_blank"), ("rel", link_rel)], kv.1 = "rel" → kv.2 = link_rel :=
  c3_anchor_rel_hardened UrlRelative.Deny
    (NodeList.cons (Node.elem "a" [("rel", "me"), ("target", "_blank")] NodeList.nil)
      NodeList.nil)
    [("target", "_blank"), ("rel", link_rel)] NodeList.nil (by decide)

/-- C4: when the base location is absent the policy is Deny, so in the
sanitized output no surviving `href` or `src` attribute is relative (every
relative URL attribute was removed), while tags and text content remain. -/
theorem c4_absent_base_removes_relative (parse : String → Option ParsedUrl)
    (ns : NodeList) :
    (∀ tag attrs children, Node.elem tag attrs children ∈
        elemsL (sanitizeList (url_relative parse none) ns) →
      ∀ kv ∈ attrs, (kv.1 = "href" ∨ kv.1 = "src") → hasScheme kv.2 = true) ∧
    textL (sanitizeList (url_relative parse none) ns) = textL ns := by
  have hpol : url_relative parse none = UrlRelative.Deny := rfl
  constructor
  · intro tag attrs children h kv hkv hks
    rw [hpol] at h
    obtain ⟨_, a0, rfl⟩ := elems_shape_L UrlRelative.Deny ns tag attrs children h
    rcases clean_attrs_mem UrlRelative.Deny tag a0 kv hkv with ⟨kv0, h0⟩ | ⟨ha, hrel⟩
    · obtain ⟨v0, hv0⟩ := clean_attr_url_value UrlRelative.Deny tag kv0 kv h0 hks
      obtain ⟨habs, heq⟩ := clean_url_deny v0 kv.2 hv0
      rw [heq]
      exact habs
    · rw [hrel] at hks
      exact absurd hks (by decide)
  · rw [hpol]
    exact textL_sanitizeList UrlRelative.Deny ns

theorem c4_absent_base_removes_relative_witness : hasScheme "https://e.com/x" = true :=
  (c4_absent_base_removes_relative (fun _ => none)
    (NodeList.cons (Node.elem "a" [("href", "/hi"), ("href", "https://e.com/x")]
      NodeList.nil) NodeList.nil)).1
    "a" [("href", "https://e.com/x"), ("rel", link_rel)] NodeList.nil (by decide)
    ("href", "https://e.com/x") (by decide) (Or.inl rfl)

/-- C5: an absolute URL value in a `href` or `src` attribute that is allowed
for its tag passes through attribute cleaning unchanged, under every URL
policy, trusted or not. -/
theorem c5_absolute_pass_through (pol : UrlRelative) (tag k v : String)
    (hk : k = "href" ∨ k = "src") (hmem : k ∈ tag_attributes tag)
    (habs : hasScheme v = true) :
    clean_attr pol tag (k, v) = some (k, v) := by
  unfold clean_attr
  have hnc : ¬ (k, v).1 = "class" := by
    rcases hk with rfl | rfl <;> simp
  rw [if_neg hnc, if_pos hmem]
  rw [if_pos (show (k, v).1 = "href" ∨ (k, v).1 = "src" from hk)]
  rw [clean_url_absolute pol v habs]
  rfl

theorem c5_absolute_pass_through_witness :
    clean_attr (UrlRelative.Custom (some "https://github.com/org/repo")) "a"
      ("href", "https://rust-lang.org/") = some ("href", "https://rust-lang.org/") :=
  c5_absolute_pass_through (UrlRelative.Custom (some "https://github.com/org/repo"))
    "a" "href" "https://rust-lang.org/" (Or.inl rfl) (by decide) (by decide)

/-- C6: every element surviving sanitization has a tag in the fixed allowed
set — equivalently, no tag outside the set yields tag markers in the output —
and the text content of the input is preserved verbatim: stripping removes
structure only, never content. -/
theorem c6_strip_structure_only (pol : UrlRelative) (ns : NodeList) :
    (∀ tag attrs children, Node.elem tag attrs children ∈ elemsL (sanitizeList pol ns) →
      tag ∈ allowed_tags) ∧
    textL (sanitizeList pol ns) = textL ns :=
  ⟨fun tag attrs children h => (elems_shape_L pol ns tag attrs children h).1,
   textL_sanitizeList pol ns⟩

theorem c6_strip_structure_only_witness : "p" ∈ allowed_tags :=
  (c6_strip_structure_only UrlRelative.Deny
    (NodeList.cons (Node.elem "p" []
      (NodeList.cons (Node.elem "unknown" [] (NodeList.cons (Node.text "x") NodeList.nil))
        NodeList.nil)) NodeList.nil)).1
    "p" [] (NodeList.cons (Node.text "x") NodeList.nil) (by decide)

/-- C7: every `class` attribute in the sanitized output is nonempty and holds
only tokens from the allowed-class set of its tag; at the attribute level,
cleaning yields no `class` attribute exactly when no token survives the
filter, and otherwise the surviving tokens are exactly the filtered ones. -/
theorem c7_class_allowlist (pol : UrlRelative) (ns : NodeList) :
    (∀ tag attrs children, Node.elem tag attrs children ∈ elemsL (sanitizeList pol ns) →
      ∀ kv ∈ attrs, kv.1 = "class" →
        splitClasses kv.2 ≠ [] ∧ ∀ c ∈ splitClasses kv.2, c ∈ allowed_classes tag) ∧
    (∀ tag v, clean_class tag v = none ↔
      (splitClasses v).filter (fun c => decide (c ∈ allowed_classes tag)) = []) ∧
    (∀ tag v w, clean_class tag v = some w →
      splitClasses w = (splitClasses v).filter (fun c => decide (c ∈ allowed_classes tag))) := by
  refine ⟨?_, fun tag v => clean_class_none tag v,
    fun tag v w h => (clean_class_some tag v w h).2.1⟩
  intro tag attrs children h kv hkv hcl
  obtain ⟨_, a0, rfl⟩ := elems_shape_L pol ns tag attrs children h
  rcases clean_attrs_mem pol tag a0 kv hkv with ⟨kv0, h0⟩ | ⟨ha, hrel⟩
  · have hcc := clean_attr_class_value pol tag kv0 kv h0 hcl
    obtain ⟨hw, hsplit, hne⟩ := clean_class_some tag kv0.2 kv.2 hcc
    constructor
    · rw [hsplit]
      exact hne
    · intro c hc
      rw [hsplit] at hc
      exact of_decide_eq_true (List.mem_filter.mp hc).2
  · rw [hrel] at hcl
    exact absurd hcl (by decide)

theorem c7_class_allowlist_witness :
    splitClasses "language-rust" ≠ [] ∧
      ∀ c ∈ splitClasses "language-rust", c ∈ allowed_classes "code" :=
  (c7_class_allowlist UrlRelative.Deny
    (NodeList.cons (Node.elem "code" [("class", "language-rust evil")] NodeList.nil)
      NodeList.nil)).1
    "code" [("class", "language-rust")] NodeList.nil (by decide)
    ("class", "language-rust") (by decide) rfl

/-- C8: sanitization is idempotent: for every policy the renderer can install
(Deny, or the rewriter bound to a base that parsed as an absolute URL, hence
carries a scheme), sanitizing an already-sanitized tree returns it
unchanged. -/
theorem c8_sanitize_idempotent (pol : UrlRelative) (hpol : ValidPol pol) (ns : NodeList) :
    sanitizeList pol (sanitizeList pol ns) = sanitizeList pol ns :=
  sanitize_idem_L pol hpol ns

theorem c8_sanitize_idempotent_witness :
    sanitizeList (UrlRelative.Custom (some "https://github.com/org/repo"))
      (sanitizeList (UrlRelative.Custom (some "https://github.com/org/repo"))
        (NodeList.cons (Node.elem "a" [("href", "/hi"), ("class", "x")]
          (NodeList.cons (Node.text "hi") NodeList.nil)) NodeList.nil))
    = sanitizeList (UrlRelative.Custom (some "https://github.com/org/repo"))
        (NodeList.cons (Node.elem "a" [("href", "/hi"), ("class", "x")]
          (NodeList.cons (Node.text "hi") NodeList.nil)) NodeList.nil) :=
  c8_sanitize_idempotent (UrlRelative.Custom (some "https://github.com/org/repo"))
    (show hasScheme "https://github.com/org/repo" = true by decide)
    (NodeList.cons (Node.elem "a" [("href", "/hi"), ("class", "x")]
      (NodeList.cons (Node.text "hi") NodeList.nil)) NodeList.nil)

/-- C9: `markdown_to_html` never fails — for every converter output, URL
parser, input text and optional base it returns `Ok` — and when the converter
yields the empty document for the empty input, the empty input yields the
empty output string. -/
theorem c9_never_fails (convert : String → NodeList) (parse : String → Option ParsedUrl)
    (base_url : Option String) :
    (∀ text, ∃ r, markdown_to_html convert parse text base_url = Except.ok r) ∧
    (convert "" = NodeList.nil →
      markdown_to_html convert parse "" base_url = Except.ok "") := by
  constructor
  · intro text
    exact ⟨_, rfl⟩
  · intro h
    unfold markdown_to_html
    rw [h]
    rfl

theorem c9_never_fails_witness :
    markdown_to_html (fun _ => NodeList.nil) (fun _ => none) "" none = Except.ok "" :=
  (c9_never_fails (fun _ => NodeList.nil) (fun _ => none) none).2 rfl

/-- C10: whenever the custom rewriting closure is installed as the URL policy,
the option it captured is necessarily present, so the `unwrap` at the start of
the closure cannot panic: on every invocation the closure returns
successfully with the rewritten URL. -/
theorem c10_unwrap_never_panics (parse : String → Option ParsedUrl)
    (base_url : Option String) (stored : Option String)
    (h : url_relative parse base_url = UrlRelative.Custom stored) :
    ∃ b, stored = some b ∧
      ∀ url, relative_url_sanitizer stored url = Except.ok (some (rewritten_url b url)) := by
  unfold url_relative at h
  by_cases hu : use_relative parse base_url = true
  · rw [if_pos hu] at h
    injection h with h
    subst h
    cases base_url with
    | none => exact absurd hu (by simp [use_relative])
    | some b => exact ⟨b, rfl, fun url => rfl⟩
  · rw [if_neg hu] at h
    exact absurd h (by simp)

theorem c10_unwrap_never_panics_witness :
    ∃ b, (some "https://github.com/org/repo" : Option String) = some b ∧
      ∀ url, relative_url_sanitizer (some "https://github.com/org/repo") url
        = Except.ok (some (rewritten_url b url)) :=
  c10_unwrap_never_panics
    (fun s => if s = "https://github.com/org/repo"
      then some { host_str := some "github.com" } else none)
    (some "https://github.com/org/repo") (some "https://github.com/org/repo") (by decide)

end CratesIoRender
